import Mathlib

/-!
Verification of the volume-rendering core of jaxngp
(`lib/impl/volrend.h` and the kernels it declares).

The header provides the descriptors, the `SQRT3` constant, the
`clampf` device utility and the `CUDA_CHECK_THROW` error macro; the
kernel bodies themselves are not part of the visible sources, so they
are modelled from the specification (each such definition carries a
doc comment saying so).  Machine floats are embedded as exact
rationals where the code is purely order/arithmetic (`clampf`,
packbits, marching) and as real numbers where the code uses `expf`
(the integrator), so that the algebraic content of the claims can be
settled exactly.
-/

namespace volrendjax

/-- The `SQRT3` constant, the decimal literal from the header taken
verbatim as a rational. -/
def SQRT3 : ℚ := 1.732050807568877293527446341505872367

/-- `clampf` from the header: `fminf(fmaxf(val, lo), hi)`. -/
def clampf (val lo hi : ℚ) : ℚ := min (max val lo) hi

/-! ## Morton codec -/

/-- Modelled from the spec: one round of the `morton3d` bit
interleaving; round `k` consumes the low bit of each coordinate and
recurses on the remaining `k - 1` bits. -/
def morton3dAux : ℕ → ℕ → ℕ → ℕ → ℕ
  | 0, _, _, _ => 0
  | k + 1, x, y, z =>
      x % 2 + 2 * (y % 2) + 4 * (z % 2) + 8 * morton3dAux k (x / 2) (y / 2) (z / 2)

/-- Modelled from the spec: one round of the `morton3d_invert` bit
de-interleaving. -/
def morton3dInvAux : ℕ → ℕ → ℕ × ℕ × ℕ
  | 0, _ => (0, 0, 0)
  | k + 1, code =>
      let r := morton3dInvAux k (code / 8)
      (code % 2 + 2 * r.1, code / 2 % 2 + 2 * r.2.1, code / 4 % 2 + 2 * r.2.2)

/-- Modelled from the spec: `morton3d` encodes three 10-bit
coordinates into one interleaved 30-bit code. -/
def morton3d (x y z : ℕ) : ℕ := morton3dAux 10 x y z

/-- Modelled from the spec: `morton3d_invert` decodes a 30-bit Morton
code back into the three 10-bit coordinates. -/
def morton3d_invert (code : ℕ) : ℕ × ℕ × ℕ := morton3dInvAux 10 code

theorem morton3dAux_inv (k : ℕ) :
    ∀ x y z : ℕ, x < 2 ^ k → y < 2 ^ k → z < 2 ^ k →
      morton3dInvAux k (morton3dAux k x y z) = (x, y, z) := by
  induction k with
  | zero =>
      intro x y z hx hy hz
      simp only [pow_zero, Nat.lt_one_iff] at hx hy hz
      subst hx; subst hy; subst hz
      rfl
  | succ k ih =>
      intro x y z hx hy hz
      have hx2 : x / 2 < 2 ^ k := by
        have := hx; rw [pow_succ] at this; omega
      have hy2 : y / 2 < 2 ^ k := by
        have := hy; rw [pow_succ] at this; omega
      have hz2 : z / 2 < 2 ^ k := by
        have := hz; rw [pow_succ] at this; omega
      have hrec := ih (x / 2) (y / 2) (z / 2) hx2 hy2 hz2
      have hxm : x % 2 < 2 := Nat.mod_lt _ (by norm_num)
      have hym : y % 2 < 2 := Nat.mod_lt _ (by norm_num)
      have hzm : z % 2 < 2 := Nat.mod_lt _ (by norm_num)
      simp only [morton3dAux, morton3dInvAux]
      have hdiv :
          (x % 2 + 2 * (y % 2) + 4 * (z % 2) + 8 * morton3dAux k (x / 2) (y / 2) (z / 2)) / 8
            = morton3dAux k (x / 2) (y / 2) (z / 2) := by omega
      rw [hdiv, hrec]
      refine Prod.ext ?_ (Prod.ext ?_ ?_) <;> simp only <;> omega

/-! ## Occupancy packing -/

/-- Modelled from the spec: `pack_density_into_bits` packs `k`
consecutive densities starting at flat index `i` into the low `k`
bits of one byte, bit `j` being set iff `density (i + j)` is strictly
above the threshold. -/
def packBits (density : ℕ → ℚ) (thr : ℚ) : ℕ → ℕ → ℕ
  | _, 0 => 0
  | i, k + 1 => (if thr < density i then 1 else 0) + 2 * packBits density thr (i + 1) k

/-- Modelled from the spec: byte `b` of the `pack_density_into_bits`
output packs densities `8·b, …, 8·b + 7`. -/
def pack_density_into_bits (density : ℕ → ℚ) (thr : ℚ) (b : ℕ) : ℕ :=
  packBits density thr (8 * b) 8

theorem packBits_testBit (density : ℕ → ℚ) (thr : ℚ) :
    ∀ k i j : ℕ, j < k →
      (packBits density thr i k).testBit j = decide (thr < density (i + j)) := by
  intro k
  induction k with
  | zero => intro i j hj; omega
  | succ k ih =>
      intro i j hj
      cases j with
      | zero =>
          simp only [packBits, Nat.testBit_zero, Nat.add_zero]
          by_cases h : thr < density i <;> simp [h]
      | succ j =>
          have hrw :
              ((if thr < density i then 1 else 0) + 2 * packBits density thr (i + 1) k) / 2
                = packBits density thr (i + 1) k := by
            by_cases h : thr < density i <;> simp [h] <;> omega
          simp only [packBits, Nat.testBit_succ, hrw]
          rw [ih (i + 1) j (by omega)]
          have harg : i + 1 + j = i + (j + 1) := by omega
          rw [harg]

/-! ## Step-size policy and ray marching -/

/-- The step-size policy documented in `MarchingDescriptor`:
`clamp(t * stepsize_portion, sqrt3/1024, 2 * bound * sqrt3/1024)`. -/
def stepSize (bound portion t : ℚ) : ℚ :=
  clampf (t * portion) (SQRT3 / 1024) (2 * bound * SQRT3 / 1024)

/-- One sample emitted by the marcher: ray parameter, world position
and step length. -/
structure MarchSample where
  t : ℚ
  pos : ℚ × ℚ × ℚ
  dt : ℚ
  deriving DecidableEq, Repr

/-- World position of a ray at parameter `t`. -/
def rayPos (o d : ℚ × ℚ × ℚ) (t : ℚ) : ℚ × ℚ × ℚ :=
  (o.1 + t * d.1, o.2.1 + t * d.2.1, o.2.2 + t * d.2.2)

/-- Modelled from the spec: the `march_rays` per-ray state machine.
State is the current parameter `t` and the emitted count `cnt`; at an
occupied position a sample is emitted and `t` advances by the clamped
step size, at an empty position `t` advances by the empty-space skip
`skip t` and nothing is emitted; marching stops past the far bound or
once `max_n_samples` samples were emitted.  `fuel` bounds the number
of iterations. -/
def march_rays (occ : ℚ × ℚ × ℚ → Bool) (o d : ℚ × ℚ × ℚ) (far : ℚ)
    (bound portion : ℚ) (skip : ℚ → ℚ) (maxn : ℕ) :
    ℕ → ℚ → ℕ → List MarchSample
  | 0, _, _ => []
  | fuel + 1, t, cnt =>
      if far < t then []
      else if maxn ≤ cnt then []
      else if occ (rayPos o d t) then
        let dt := stepSize bound portion t
        ⟨t, rayPos o d t, dt⟩ ::
          march_rays occ o d far bound portion skip maxn fuel (t + dt) (cnt + 1)
      else
        march_rays occ o d far bound portion skip maxn fuel (t + skip t) cnt

theorem stepSize_pos (bound portion t : ℚ) (hb : 0 < bound) :
    0 < stepSize bound portion t := by
  have h3 : (0 : ℚ) < SQRT3 / 1024 := by norm_num [SQRT3]
  have hhi : (0 : ℚ) < 2 * bound * SQRT3 / 1024 := by
    have : (0 : ℚ) < SQRT3 := by norm_num [SQRT3]
    positivity
  simp only [stepSize, clampf, lt_min_iff]
  constructor
  · exact lt_of_lt_of_le h3 (le_max_right _ _)
  · exact hhi

theorem march_rays_inv (occ : ℚ × ℚ × ℚ → Bool) (o d : ℚ × ℚ × ℚ) (far : ℚ)
    (bound portion : ℚ) (skip : ℚ → ℚ) (maxn : ℕ)
    (hb : 0 < bound) (hs : ∀ u, 0 < skip u) :
    ∀ fuel : ℕ, ∀ t : ℚ, ∀ cnt : ℕ,
      (∀ s ∈ march_rays occ o d far bound portion skip maxn fuel t cnt,
          t ≤ s.t ∧ occ s.pos = true ∧ s.dt = stepSize bound portion s.t) ∧
      (march_rays occ o d far bound portion skip maxn fuel t cnt).Pairwise
        (fun a b => a.t < b.t) ∧
      (march_rays occ o d far bound portion skip maxn fuel t cnt).length ≤ maxn - cnt := by
  intro fuel
  induction fuel with
  | zero => intro t cnt; simp [march_rays]
  | succ fuel ih =>
      intro t cnt
      by_cases hfar : far < t
      · simp [march_rays, hfar]
      by_cases hcnt : maxn ≤ cnt
      · simp [march_rays, hfar, hcnt]
      by_cases hocc : occ (rayPos o d t) = true
      · have hstep := stepSize_pos bound portion t hb
        obtain ⟨ihmem, ihpw, ihlen⟩ := ih (t + stepSize bound portion t) (cnt + 1)
        constructor
        · intro s hs'
          simp only [march_rays, hfar, hcnt, hocc, if_false, if_true,
            List.mem_cons] at hs'
          rcases hs' with rfl | hs'
          · exact ⟨le_refl _, hocc, rfl⟩
          · obtain ⟨h1, h2, h3⟩ := ihmem s hs'
            exact ⟨by linarith, h2, h3⟩
        constructor
        · simp only [march_rays, hfar, hcnt, hocc, if_false, if_true]
          refine List.Pairwise.cons ?_ ihpw
          intro s hs'
          have := (ihmem s hs').1
          simp only
          linarith
        · simp only [march_rays, hfar, hcnt, hocc, if_false, if_true,
            List.length_cons]
          omega
      · have hocc' : occ (rayPos o d t) = false := by
          simpa using hocc
        obtain ⟨ihmem, ihpw, ihlen⟩ := ih (t + skip t) cnt
        have hsk := hs t
        constructor
        · intro s hs'
          simp only [march_rays, hfar, hcnt, hocc', if_false] at hs'
          obtain ⟨h1, h2, h3⟩ := ihmem s hs'
          exact ⟨by linarith, h2, h3⟩
        constructor
        · simp only [march_rays, hfar, hcnt, hocc', if_false]
          exact ihpw
        · simp only [march_rays, hfar, hcnt, hocc', if_false]
          exact ihlen

theorem march_rays_mem_dt (occ : ℚ × ℚ × ℚ → Bool) (o d : ℚ × ℚ × ℚ) (far : ℚ)
    (bound portion : ℚ) (skip : ℚ → ℚ) (maxn : ℕ) :
    ∀ fuel : ℕ, ∀ t : ℚ, ∀ cnt : ℕ,
      ∀ s ∈ march_rays occ o d far bound portion skip maxn fuel t cnt,
        s.dt = stepSize bound portion s.t := by
  intro fuel
  induction fuel with
  | zero => intro t cnt s hs; simp [march_rays] at hs
  | succ fuel ih =>
      intro t cnt s hs
      by_cases hfar : far < t
      · simp [march_rays, hfar] at hs
      by_cases hcnt : maxn ≤ cnt
      · simp [march_rays, hfar, hcnt] at hs
      by_cases hocc : occ (rayPos o d t) = true
      · simp only [march_rays, hfar, hcnt, hocc, if_false, if_true,
          List.mem_cons] at hs
        rcases hs with rfl | hs
        · rfl
        · exact ih _ _ s hs
      · have hocc' : occ (rayPos o d t) = false := by simpa using hocc
        simp only [march_rays, hfar, hcnt, hocc', if_false] at hs
        exact ih _ _ s hs

theorem clampf_between (val lo hi : ℚ) (h : lo ≤ hi) :
    lo ≤ clampf val lo hi ∧ clampf val lo hi ≤ hi := by
  refine ⟨le_min (le_max_right val lo) h, min_le_right _ _⟩

/-! ## Descriptors -/

/-- Per-ray marching input: origin, direction, far bound and starting
parameter. -/
structure RayInput where
  o : ℚ × ℚ × ℚ
  d : ℚ × ℚ × ℚ
  far : ℚ
  t0 : ℚ

/-- Modelled from the spec: `march_rays` over a whole batch, one
per-ray sample list per input ray. -/
def march_batch (occ : ℚ × ℚ × ℚ → Bool) (bound portion : ℚ) (skip : ℚ → ℚ)
    (maxn fuel : ℕ) (rays : List RayInput) : List (List MarchSample) :=
  rays.map fun r => march_rays occ r.o r.d r.far bound portion skip maxn fuel r.t0 0

/-- `IntegratingDescriptor` from the header: number of rays and the
sum of the per-ray sample counts. -/
structure IntegratingDescriptor where
  n_rays : ℕ
  total_samples : ℕ

/-- Modelled from the spec: the descriptor handed to `integrate_rays`
is built from the flattened marching output; `total_samples` is the
length of the flattened per-sample buffer. -/
def mkIntegratingDescriptor (samples : List (List MarchSample)) : IntegratingDescriptor :=
  ⟨samples.length, samples.join.length⟩

/-! ## Claim theorems on the rational fragment -/

/-- C3: for all coordinates `x, y, z < 1024`, decoding the Morton code
obtained by encoding them returns the original triple. -/
theorem morton3d_roundtrip (x y z : ℕ) (hx : x < 1024) (hy : y < 1024) (hz : z < 1024) :
    morton3d_invert (morton3d x y z) = (x, y, z) := by
  have h10 : (2 : ℕ) ^ 10 = 1024 := by norm_num
  exact morton3dAux_inv 10 x y z (h10 ▸ hx) (h10 ▸ hy) (h10 ▸ hz)

theorem morton3d_roundtrip_witness :
    (5 < 1024 ∧ 6 < 1024 ∧ 7 < 1024) ∧ morton3d_invert (morton3d 5 6 7) = (5, 6, 7) :=
  ⟨by decide, morton3d_roundtrip 5 6 7 (by decide) (by decide) (by decide)⟩

/-- C4: bit `i` of the packed bitmask is 1 iff `density i` is strictly
above the threshold; a density exactly equal to the threshold yields
bit 0. -/
theorem pack_density_into_bits_bit (density : ℕ → ℚ) (thr : ℚ) (nbytes i : ℕ)
    (hi : i < nbytes * 8) :
    ((pack_density_into_bits density thr (i / 8)).testBit (i % 8) = true ↔
        thr < density i) ∧
    (density i = thr →
      (pack_density_into_bits density thr (i / 8)).testBit (i % 8) = false) := by
  have h8 : i % 8 < 8 := Nat.mod_lt _ (by norm_num)
  have hbit := packBits_testBit density thr 8 (8 * (i / 8)) (i % 8) h8
  unfold pack_density_into_bits
  rw [hbit]
  have harg : 8 * (i / 8) + i % 8 = i := by omega
  rw [harg]
  constructor
  · simp
  · intro h
    rw [h]
    simp

theorem pack_density_into_bits_bit_witness :
    3 < 1 * 8 ∧
    (((pack_density_into_bits (fun n => (n : ℚ)) 2 (3 / 8)).testBit (3 % 8) = true ↔
        (2 : ℚ) < ((3 : ℕ) : ℚ)) ∧
      (((3 : ℕ) : ℚ) = 2 →
        (pack_density_into_bits (fun n => (n : ℚ)) 2 (3 / 8)).testBit (3 % 8) = false)) :=
  ⟨by decide, pack_density_into_bits_bit (fun n => (n : ℚ)) 2 1 3 (by decide)⟩

/-- C6: for every ray and occupancy predicate, the samples produced by
`march_rays` are strictly increasing in `t`, every sample position is
occupied, and at most `max_n_samples` samples are emitted. -/
theorem march_rays_samples (occ : ℚ × ℚ × ℚ → Bool) (o d : ℚ × ℚ × ℚ) (far : ℚ)
    (bound portion : ℚ) (skip : ℚ → ℚ) (maxn fuel : ℕ) (t0 : ℚ)
    (hb : 0 < bound) (hs : ∀ u, 0 < skip u) :
    (march_rays occ o d far bound portion skip maxn fuel t0 0).Pairwise
        (fun a b => a.t < b.t) ∧
    (∀ s ∈ march_rays occ o d far bound portion skip maxn fuel t0 0,
        occ s.pos = true) ∧
    (march_rays occ o d far bound portion skip maxn fuel t0 0).length ≤ maxn := by
  obtain ⟨hmem, hpw, hlen⟩ :=
    march_rays_inv occ o d far bound portion skip maxn hb hs fuel t0 0
  exact ⟨hpw, fun s hs' => (hmem s hs').2.1, by omega⟩

theorem march_rays_samples_witness :
    ((0 : ℚ) < 1 ∧ ∀ u : ℚ, (0 : ℚ) < (fun _ : ℚ => (1 : ℚ)) u) ∧
    ((march_rays (fun _ => true) (0, 0, 0) (1, 0, 0) 1 1 1 (fun _ => 1) 2 3 0 0).Pairwise
        (fun a b => a.t < b.t) ∧
      (∀ s ∈ march_rays (fun _ => true) (0, 0, 0) (1, 0, 0) 1 1 1 (fun _ => 1) 2 3 0 0,
          (fun _ : ℚ × ℚ × ℚ => true) s.pos = true) ∧
      (march_rays (fun _ => true) (0, 0, 0) (1, 0, 0) 1 1 1 (fun _ => 1) 2 3 0 0).length ≤ 2) :=
  ⟨⟨by norm_num, fun u => by norm_num⟩,
    march_rays_samples (fun _ => true) (0, 0, 0) (1, 0, 0) 1 1 1 (fun _ => 1) 2 3 0
      (by norm_num) (fun u => by norm_num)⟩

/-- C5 counterexample: with `bound = 1/4 > 0` and
`stepsize_portion = 1 > 0`, the single step emitted by `march_rays`
has step size `2·bound·√3/1024`, which is strictly below the claimed
lower limit `√3/1024`. -/
theorem march_rays_step_below_low :
    (0 : ℚ) < 1 / 4 ∧ (0 : ℚ) < 1 ∧
    (march_rays (fun _ => true) (0, 0, 0) (1, 0, 0) 1 (1 / 4) 1 (fun _ => 1) 1 1 0 0).map
        MarchSample.dt = [2 * (1 / 4) * SQRT3 / 1024] ∧
    2 * (1 / 4 : ℚ) * SQRT3 / 1024 < SQRT3 / 1024 := by
  refine ⟨by norm_num, by norm_num, ?_, by norm_num [SQRT3]⟩
  have hstep : stepSize (1 / 4) 1 0 = 2 * (1 / 4) * SQRT3 / 1024 := by
    unfold stepSize clampf
    norm_num [SQRT3]
  have hL : march_rays (fun _ => true) (0, 0, 0) (1, 0, 0) 1 (1 / 4) 1 (fun _ => 1) 1 1 0 0
      = [⟨0, rayPos (0, 0, 0) (1, 0, 0) 0, stepSize (1 / 4) 1 0⟩] := by
    simp [march_rays]
  rw [hL, List.map_singleton, hstep]

/-- C5 (amended): every emitted step size equals
`clamp(t·stepsize_portion, √3/1024, 2·bound·√3/1024)`; when moreover
`bound ≥ 1/2` (so that the clamp's lower limit does not exceed its
upper limit) the step size lies between `√3/1024` and
`2·bound·√3/1024`. -/
theorem march_rays_stepsize (occ : ℚ × ℚ × ℚ → Bool) (o d : ℚ × ℚ × ℚ) (far : ℚ)
    (bound portion : ℚ) (skip : ℚ → ℚ) (maxn fuel : ℕ) (t0 : ℚ)
    (hb : 0 < bound) (hp : 0 < portion) :
    ∀ s ∈ march_rays occ o d far bound portion skip maxn fuel t0 0,
      s.dt = stepSize bound portion s.t ∧
      (1 / 2 ≤ bound →
        SQRT3 / 1024 ≤ s.dt ∧ s.dt ≤ 2 * bound * SQRT3 / 1024) := by
  intro s hs
  have hdt := march_rays_mem_dt occ o d far bound portion skip maxn fuel t0 0 s hs
  refine ⟨hdt, fun hhalf => ?_⟩
  have hlohi : SQRT3 / 1024 ≤ 2 * bound * SQRT3 / 1024 := by
    have h3 : (0 : ℚ) < SQRT3 := by norm_num [SQRT3]
    nlinarith
  have := clampf_between (s.t * portion) (SQRT3 / 1024) (2 * bound * SQRT3 / 1024) hlohi
  rw [hdt]
  exact this

theorem march_rays_stepsize_witness :
    ((0 : ℚ) < 1 ∧ (0 : ℚ) < 1) ∧
    ∀ s ∈ march_rays (fun _ => true) (0, 0, 0) (1, 0, 0) 1 1 1 (fun _ => 1) 2 3 0 0,
      s.dt = stepSize 1 1 s.t ∧
      ((1 : ℚ) / 2 ≤ 1 →
        SQRT3 / 1024 ≤ s.dt ∧ s.dt ≤ 2 * 1 * SQRT3 / 1024) :=
  ⟨⟨by norm_num, by norm_num⟩,
    march_rays_stepsize (fun _ => true) (0, 0, 0) (1, 0, 0) 1 1 1 (fun _ => 1) 2 3 0
      (by norm_num) (by norm_num)⟩

/-- C10: `clampf` is `min (max val lo) hi`; when `hi < lo` it returns
`hi` regardless of `val`, so with `0 < bound < 1/2` the step-size
policy always returns the upper limit `2·bound·√3/1024`, which is
strictly below the lower clamp `√3/1024`. -/
theorem clampf_spec (val lo hi bound portion t : ℚ)
    (hb : 0 < bound) (hhalf : bound < 1 / 2) :
    clampf val lo hi = min (max val lo) hi ∧
    (hi < lo → clampf val lo hi = hi) ∧
    stepSize bound portion t = 2 * bound * SQRT3 / 1024 ∧
    2 * bound * SQRT3 / 1024 < SQRT3 / 1024 := by
  have h3 : (0 : ℚ) < SQRT3 := by norm_num [SQRT3]
  have hcol : ∀ v l h : ℚ, h < l → clampf v l h = h := by
    intro v l h hlt
    unfold clampf
    exact min_eq_right (le_of_lt (lt_of_lt_of_le hlt (le_max_right v l)))
  have hlow : 2 * bound * SQRT3 / 1024 < SQRT3 / 1024 := by nlinarith
  exact ⟨rfl, hcol val lo hi, hcol _ _ _ hlow, hlow⟩

theorem clampf_spec_witness :
    ((0 : ℚ) < 1 / 4 ∧ (1 / 4 : ℚ) < 1 / 2) ∧
    (clampf 5 1 0 = min (max 5 1) 0 ∧
      ((0 : ℚ) < 1 → clampf 5 1 0 = 0) ∧
      stepSize (1 / 4) 1 7 = 2 * (1 / 4) * SQRT3 / 1024 ∧
      2 * (1 / 4 : ℚ) * SQRT3 / 1024 < SQRT3 / 1024) :=
  ⟨⟨by norm_num, by norm_num⟩, clampf_spec 5 1 0 (1 / 4) 1 7 (by norm_num) (by norm_num)⟩

/-- C8: `total_samples` of the descriptor built for `integrate_rays`
equals the sum of the per-ray sample counts that `march_rays` produced
for the same batch. -/
theorem mkIntegratingDescriptor_total_samples (occ : ℚ × ℚ × ℚ → Bool)
    (bound portion : ℚ) (skip : ℚ → ℚ) (maxn fuel : ℕ) (rays : List RayInput) :
    (mkIntegratingDescriptor (march_batch occ bound portion skip maxn fuel rays)).total_samples
      = ((march_batch occ bound portion skip maxn fuel rays).map List.length).sum := by
  simp [mkIntegratingDescriptor, List.length_join]

/-! ## Ray integration (forward) -/

/-- Modelled from the spec: per-sample alpha
`α_i = 1 − exp(−σ_i·Δt_i)`. -/
noncomputable def alpha (σ Δt : ℕ → ℝ) (i : ℕ) : ℝ := 1 - Real.exp (-(σ i * Δt i))

/-- Modelled from the spec: running transmittance, `T_0 = 1`,
`T_{i+1} = T_i·(1 − α_i)`. -/
noncomputable def transmit (σ Δt : ℕ → ℝ) : ℕ → ℝ
  | 0 => 1
  | i + 1 => transmit σ Δt i * (1 - alpha σ Δt i)

/-- Modelled from the spec: per-sample weight `w_i = T_i·α_i`. -/
noncomputable def sampleWeight (σ Δt : ℕ → ℝ) (i : ℕ) : ℝ :=
  transmit σ Δt i * alpha σ Δt i

/-- Modelled from the spec: the `integrate_rays` forward scan for one
ray holding `n` samples with densities `σ`, step sizes `Δt`, ray
parameters `tv` and colors `c`.  The scan state is
`(color, depth, weight sum, transmittance)`, updated sequentially in
sample order. -/
noncomputable def integrate_rays (σ Δt tv : ℕ → ℝ) (c : ℕ → Fin 3 → ℝ) :
    ℕ → (Fin 3 → ℝ) × ℝ × ℝ × ℝ
  | 0 => (fun _ => 0, 0, 0, 1)
  | n + 1 =>
      let p := integrate_rays σ Δt tv c n
      let a := 1 - Real.exp (-(σ n * Δt n))
      let w := p.2.2.2 * a
      (fun ch => p.1 ch + w * c n ch, p.2.1 + w * tv n, p.2.2.1 + w, p.2.2.2 * (1 - a))

theorem integrate_rays_T (σ Δt tv : ℕ → ℝ) (c : ℕ → Fin 3 → ℝ) :
    ∀ n, (integrate_rays σ Δt tv c n).2.2.2 = transmit σ Δt n := by
  intro n
  induction n with
  | zero => simp [integrate_rays, transmit]
  | succ n ih => simp [integrate_rays, transmit, alpha, ih]

theorem integrate_rays_color (σ Δt tv : ℕ → ℝ) (c : ℕ → Fin 3 → ℝ) :
    ∀ n, ∀ ch : Fin 3,
      (integrate_rays σ Δt tv c n).1 ch
        = ∑ i in Finset.range n, sampleWeight σ Δt i * c i ch := by
  intro n
  induction n with
  | zero => simp [integrate_rays]
  | succ n ih =>
      intro ch
      simp only [integrate_rays, Finset.sum_range_succ, ← ih ch]
      rw [integrate_rays_T]
      simp [sampleWeight, alpha]

theorem integrate_rays_depth (σ Δt tv : ℕ → ℝ) (c : ℕ → Fin 3 → ℝ) :
    ∀ n, (integrate_rays σ Δt tv c n).2.1
        = ∑ i in Finset.range n, sampleWeight σ Δt i * tv i := by
  intro n
  induction n with
  | zero => simp [integrate_rays]
  | succ n ih =>
      simp only [integrate_rays, Finset.sum_range_succ, ← ih]
      rw [integrate_rays_T]
      simp [sampleWeight, alpha]

theorem integrate_rays_weight (σ Δt tv : ℕ → ℝ) (c : ℕ → Fin 3 → ℝ) :
    ∀ n, (integrate_rays σ Δt tv c n).2.2.1
        = ∑ i in Finset.range n, sampleWeight σ Δt i := by
  intro n
  induction n with
  | zero => simp [integrate_rays]
  | succ n ih =>
      simp only [integrate_rays, Finset.sum_range_succ, ← ih]
      rw [integrate_rays_T]
      simp [sampleWeight, alpha]

/-- C1: the `integrate_rays` scan returns exactly the reference
composite — color `Σ w_i·c_i`, depth `Σ w_i·t_i` and total weight
`Σ w_i` with `w_i = T_i·α_i`, `T_0 = 1`, `T_{i+1} = T_i·(1 − α_i)`,
`α_i = 1 − exp(−σ_i·Δt_i)` — and a ray with zero samples yields zero
outputs with total weight 0. -/
theorem integrate_rays_spec (σ Δt tv : ℕ → ℝ) (c : ℕ → Fin 3 → ℝ) (n : ℕ) :
    (∀ ch : Fin 3,
        (integrate_rays σ Δt tv c n).1 ch
          = ∑ i in Finset.range n, sampleWeight σ Δt i * c i ch) ∧
    (integrate_rays σ Δt tv c n).2.1
      = ∑ i in Finset.range n, sampleWeight σ Δt i * tv i ∧
    (integrate_rays σ Δt tv c n).2.2.1
      = ∑ i in Finset.range n, sampleWeight σ Δt i ∧
    ((∀ ch : Fin 3, (integrate_rays σ Δt tv c 0).1 ch = 0) ∧
      (integrate_rays σ Δt tv c 0).2.1 = 0 ∧
      (integrate_rays σ Δt tv c 0).2.2.1 = 0) :=
  ⟨integrate_rays_color σ Δt tv c n, integrate_rays_depth σ Δt tv c n,
    integrate_rays_weight σ Δt tv c n,
    fun ch => rfl, rfl, rfl⟩

theorem transmit_nonneg (σ Δt : ℕ → ℝ) : ∀ n, 0 ≤ transmit σ Δt n := by
  intro n
  induction n with
  | zero => norm_num [transmit]
  | succ n ih =>
      have hexp : 1 - alpha σ Δt n = Real.exp (-(σ n * Δt n)) := by
        simp [alpha]
      rw [transmit, hexp]
      exact mul_nonneg ih (le_of_lt (Real.exp_pos _))

theorem alpha_nonneg (σ Δt : ℕ → ℝ) (i : ℕ) (h : 0 ≤ σ i * Δt i) :
    0 ≤ alpha σ Δt i := by
  have : Real.exp (-(σ i * Δt i)) ≤ 1 := by
    rw [Real.exp_le_one_iff]
    linarith
  simp only [alpha]
  linarith

theorem sum_weight_transmit (σ Δt : ℕ → ℝ) :
    ∀ n, ∑ i in Finset.range n, sampleWeight σ Δt i + transmit σ Δt n = 1 := by
  intro n
  induction n with
  | zero => simp [transmit]
  | succ n ih =>
      rw [Finset.sum_range_succ, transmit, sampleWeight]
      ring_nf
      ring_nf at ih
      linarith

/-- C7: for nonnegative densities and step sizes, the total weight
returned by `integrate_rays` lies in `[0, 1]`; the running
transmittance is never negative and never increases along the ray. -/
theorem integrate_rays_weight_range (σ Δt tv : ℕ → ℝ) (c : ℕ → Fin 3 → ℝ) (n : ℕ)
    (hσ : ∀ i, 0 ≤ σ i) (hΔ : ∀ i, 0 ≤ Δt i) :
    (0 ≤ (integrate_rays σ Δt tv c n).2.2.1 ∧
      (integrate_rays σ Δt tv c n).2.2.1 ≤ 1) ∧
    (∀ i, 0 ≤ transmit σ Δt i) ∧
    (∀ i, transmit σ Δt (i + 1) ≤ transmit σ Δt i) := by
  have hmul : ∀ i, 0 ≤ σ i * Δt i := fun i => mul_nonneg (hσ i) (hΔ i)
  have hanti : ∀ i, transmit σ Δt (i + 1) ≤ transmit σ Δt i := by
    intro i
    rw [transmit]
    have ha := alpha_nonneg σ Δt i (hmul i)
    nlinarith [transmit_nonneg σ Δt i]
  refine ⟨?_, transmit_nonneg σ Δt, hanti⟩
  rw [integrate_rays_weight]
  constructor
  · refine Finset.sum_nonneg fun i _ => ?_
    exact mul_nonneg (transmit_nonneg σ Δt i) (alpha_nonneg σ Δt i (hmul i))
  · have := sum_weight_transmit σ Δt n
    have := transmit_nonneg σ Δt n
    linarith

theorem integrate_rays_weight_range_witness :
    ((∀ i : ℕ, (0 : ℝ) ≤ (fun _ : ℕ => (1 : ℝ)) i) ∧
      (∀ i : ℕ, (0 : ℝ) ≤ (fun _ : ℕ => (1 : ℝ)) i)) ∧
    ((0 ≤ (integrate_rays (fun _ => 1) (fun _ => 1) (fun _ => 0) (fun _ _ => 0) 2).2.2.1 ∧
        (integrate_rays (fun _ => 1) (fun _ => 1) (fun _ => 0) (fun _ _ => 0) 2).2.2.1 ≤ 1) ∧
      (∀ i, 0 ≤ transmit (fun _ => 1) (fun _ => 1) i) ∧
      (∀ i, transmit (fun _ => 1) (fun _ => 1) (i + 1) ≤ transmit (fun _ => 1) (fun _ => 1) i)) :=
  ⟨⟨fun i => by norm_num, fun i => by norm_num⟩,
    integrate_rays_weight_range (fun _ => 1) (fun _ => 1) (fun _ => 0) (fun _ _ => 0) 2
      (fun i => by norm_num) (fun i => by norm_num)⟩


/-! ## Ray integration (backward) -/

noncomputable def lossIn (dC : Fin 3 → ℝ) (dD dW : ℝ) (c : ℕ → Fin 3 → ℝ)
    (tv : ℕ → ℝ) (j : ℕ) : ℝ :=
  (∑ ch, dC ch * c j ch) + dD * tv j + dW

noncomputable def rayLoss (σ Δt tv : ℕ → ℝ) (c : ℕ → Fin 3 → ℝ)
    (dC : Fin 3 → ℝ) (dD dW : ℝ) (n : ℕ) : ℝ :=
  (∑ ch, dC ch * (integrate_rays σ Δt tv c n).1 ch)
    + dD * (integrate_rays σ Δt tv c n).2.1
    + dW * (integrate_rays σ Δt tv c n).2.2.1

noncomputable def integrate_rays_backward (σ Δt tv : ℕ → ℝ) (c : ℕ → Fin 3 → ℝ)
    (dC : Fin 3 → ℝ) (dD dW : ℝ) (n i : ℕ) : ℝ × (Fin 3 → ℝ) :=
  (Δt i * (Real.exp (-(σ i * Δt i)) * transmit σ Δt i * lossIn dC dD dW c tv i
      - ∑ j in Finset.Ico (i + 1) n, sampleWeight σ Δt j * lossIn dC dD dW c tv j),
   fun ch => sampleWeight σ Δt i * dC ch)

theorem rayLoss_eq (σ Δt tv : ℕ → ℝ) (c : ℕ → Fin 3 → ℝ)
    (dC : Fin 3 → ℝ) (dD dW : ℝ) (n : ℕ) :
    rayLoss σ Δt tv c dC dD dW n
      = ∑ j in Finset.range n, sampleWeight σ Δt j * lossIn dC dD dW c tv j := by
  unfold rayLoss lossIn
  rw [integrate_rays_depth, integrate_rays_weight]
  simp_rw [integrate_rays_color]
  rw [Finset.mul_sum, Finset.mul_sum]
  simp_rw [Finset.mul_sum]
  rw [Finset.sum_comm]
  rw [← Finset.sum_add_distrib, ← Finset.sum_add_distrib]
  refine Finset.sum_congr rfl fun j _ => ?_
  ring_nf
  rw [Finset.mul_sum]
  congr 1
  exact Finset.sum_congr rfl fun ch _ => by ring

theorem transmit_eq_prod (σ Δt : ℕ → ℝ) :
    ∀ n, transmit σ Δt n = ∏ j in Finset.range n, Real.exp (-(σ j * Δt j)) := by
  intro n
  induction n with
  | zero => simp [transmit]
  | succ n ih =>
      rw [transmit, Finset.prod_range_succ, ih]
      congr 1
      simp [alpha]

theorem alpha_update_ne (σ Δt : ℕ → ℝ) (i : ℕ) (s : ℝ) (j : ℕ) (hj : j ≠ i) :
    alpha (Function.update σ i s) Δt j = alpha σ Δt j := by
  simp [alpha, Function.update_noteq hj]

theorem transmit_update_le (σ Δt : ℕ → ℝ) (i : ℕ) (s : ℝ) (j : ℕ) (hj : j ≤ i) :
    transmit (Function.update σ i s) Δt j = transmit σ Δt j := by
  rw [transmit_eq_prod, transmit_eq_prod]
  refine Finset.prod_congr rfl fun l hl => ?_
  have hl' : l < j := Finset.mem_range.mp hl
  rw [Function.update_noteq (by omega : l ≠ i)]

theorem transmit_update_gt (σ Δt : ℕ → ℝ) (i : ℕ) (s : ℝ) (j : ℕ) (hj : i < j) :
    transmit (Function.update σ i s) Δt j
      = Real.exp (-(s * Δt i)) *
          ∏ l in (Finset.range j).erase i, Real.exp (-(σ l * Δt l)) := by
  rw [transmit_eq_prod]
  rw [← Finset.mul_prod_erase _ _ (Finset.mem_range.mpr hj)]
  congr 1
  · rw [Function.update_same]
  · refine Finset.prod_congr rfl fun l hl => ?_
    have hl' : l ≠ i := Finset.ne_of_mem_erase hl
    rw [Function.update_noteq hl']

theorem sampleWeight_update_lt (σ Δt : ℕ → ℝ) (i : ℕ) (s : ℝ) (j : ℕ) (hj : j < i) :
    sampleWeight (Function.update σ i s) Δt j = sampleWeight σ Δt j := by
  rw [sampleWeight, sampleWeight, transmit_update_le σ Δt i s j (le_of_lt hj),
    alpha_update_ne σ Δt i s j (ne_of_lt hj)]

theorem sum_range_split (F : ℕ → ℝ) (i n : ℕ) (hin : i < n) :
    ∑ j in Finset.range n, F j
      = ((∑ j in Finset.range i, F j) + F i) + ∑ j in Finset.Ico (i + 1) n, F j := by
  rw [Finset.range_eq_Ico,
    ← Finset.sum_Ico_consecutive F (Nat.zero_le (i + 1)) (by omega : i + 1 ≤ n),
    ← Finset.range_eq_Ico]
  rw [Finset.sum_range_succ]

theorem lossIn_update_ne (dC : Fin 3 → ℝ) (dD dW : ℝ) (c : ℕ → Fin 3 → ℝ)
    (tv : ℕ → ℝ) (i : ℕ) (b : Fin 3 → ℝ) (j : ℕ) (hj : j ≠ i) :
    lossIn dC dD dW (Function.update c i b) tv j = lossIn dC dD dW c tv j := by
  simp [lossIn, Function.update_noteq hj]

/-- C2: for every sample `i < n`, `integrate_rays_backward` returns
exactly the reverse-mode derivative of the `integrate_rays` forward
map contracted with the upstream gradients `dC`, `dD`, `dW`, with
respect to `σ_i` and to each color channel of `c_i`; a ray with zero
samples produces an empty gradient buffer. -/
theorem integrate_rays_backward_spec (σ Δt tv : ℕ → ℝ) (c : ℕ → Fin 3 → ℝ)
    (dC : Fin 3 → ℝ) (dD dW : ℝ) (n i : ℕ) (hin : i < n) :
    HasDerivAt
      (fun s => rayLoss (Function.update σ i s) Δt tv c dC dD dW n)
      (integrate_rays_backward σ Δt tv c dC dD dW n i).1 (σ i) ∧
    (∀ ch : Fin 3,
      HasDerivAt
        (fun s =>
          rayLoss σ Δt tv (Function.update c i (Function.update (c i) ch s)) dC dD dW n)
        ((integrate_rays_backward σ Δt tv c dC dD dW n i).2 ch) (c i ch)) ∧
    (List.range 0).map (integrate_rays_backward σ Δt tv c dC dD dW 0) = [] := by
  refine ⟨?_, ?_, rfl⟩
  · -- gradient with respect to the density of sample i
    have hfun : (fun s => rayLoss (Function.update σ i s) Δt tv c dC dD dW n)
        = fun s => ((∑ j in Finset.range i, sampleWeight σ Δt j * lossIn dC dD dW c tv j)
            + sampleWeight (Function.update σ i s) Δt i * lossIn dC dD dW c tv i)
            + ∑ j in Finset.Ico (i + 1) n,
                sampleWeight (Function.update σ i s) Δt j * lossIn dC dD dW c tv j := by
      funext s
      rw [rayLoss_eq, sum_range_split _ i n hin]
      congr 2
      exact Finset.sum_congr rfl fun j hj => by
        rw [sampleWeight_update_lt σ Δt i s j (Finset.mem_range.mp hj)]
    rw [hfun]
    have hconst : HasDerivAt
        (fun _ : ℝ => ∑ j in Finset.range i, sampleWeight σ Δt j * lossIn dC dD dW c tv j)
        0 (σ i) := hasDerivAt_const _ _
    have hlin : HasDerivAt (fun s : ℝ => -(s * Δt i)) (-(1 * Δt i)) (σ i) :=
      ((hasDerivAt_id' (σ i)).mul_const (Δt i)).neg
    have hexp := hlin.exp
    have hmid0 :=
      ((hexp.const_sub 1).const_mul (transmit σ Δt i)).mul_const (lossIn dC dD dW c tv i)
    have hmidfun :
        (fun s => transmit σ Δt i * (1 - Real.exp (-(s * Δt i))) * lossIn dC dD dW c tv i)
          = fun s => sampleWeight (Function.update σ i s) Δt i * lossIn dC dD dW c tv i := by
      funext s
      rw [sampleWeight, transmit_update_le σ Δt i s i (le_refl i)]
      congr 2
      simp [alpha]
    have hmid := hmidfun ▸ hmid0
    have htail : ∀ j ∈ Finset.Ico (i + 1) n,
        HasDerivAt
          (fun s => sampleWeight (Function.update σ i s) Δt j * lossIn dC dD dW c tv j)
          (-(Δt i) * (sampleWeight σ Δt j * lossIn dC dD dW c tv j)) (σ i) := by
      intro j hj
      have hij : i < j := by
        have := (Finset.mem_Ico.mp hj).1
        omega
      have hfeq :
          (fun s => sampleWeight (Function.update σ i s) Δt j * lossIn dC dD dW c tv j)
            = fun s => Real.exp (-(s * Δt i)) *
                ((∏ l in (Finset.range j).erase i, Real.exp (-(σ l * Δt l)))
                  * alpha σ Δt j * lossIn dC dD dW c tv j) := by
        funext s
        rw [sampleWeight, transmit_update_gt σ Δt i s j hij,
          alpha_update_ne σ Δt i s j (ne_of_gt hij)]
        ring
      have h0 := hexp.mul_const
        ((∏ l in (Finset.range j).erase i, Real.exp (-(σ l * Δt l)))
          * alpha σ Δt j * lossIn dC dD dW c tv j)
      have hTj : Real.exp (-(σ i * Δt i)) *
          ∏ l in (Finset.range j).erase i, Real.exp (-(σ l * Δt l)) = transmit σ Δt j := by
        have h2 := transmit_update_gt σ Δt i (σ i) j hij
        rw [Function.update_eq_self] at h2
        exact h2.symm
      have hval : Real.exp (-(σ i * Δt i)) * -(1 * Δt i) *
          ((∏ l in (Finset.range j).erase i, Real.exp (-(σ l * Δt l)))
            * alpha σ Δt j * lossIn dC dD dW c tv j)
          = -(Δt i) * (sampleWeight σ Δt j * lossIn dC dD dW c tv j) := by
        rw [sampleWeight, ← hTj]
        ring
      rw [hfeq]
      exact hval ▸ h0
    have htails := HasDerivAt.sum htail
    have hsum := (hconst.add hmid).add htails
    have hfin : (0 + transmit σ Δt i * -(Real.exp (-(σ i * Δt i)) * -(1 * Δt i))
          * lossIn dC dD dW c tv i)
        + ∑ j in Finset.Ico (i + 1) n,
            -(Δt i) * (sampleWeight σ Δt j * lossIn dC dD dW c tv j)
        = (integrate_rays_backward σ Δt tv c dC dD dW n i).1 := by
      simp only [integrate_rays_backward]
      rw [← Finset.mul_sum]
      ring
    exact hfin ▸ hsum
  · -- gradient with respect to each color channel of sample i
    intro ch
    have hfun : (fun s =>
          rayLoss σ Δt tv (Function.update c i (Function.update (c i) ch s)) dC dD dW n)
        = fun s => ((∑ j in Finset.range i, sampleWeight σ Δt j * lossIn dC dD dW c tv j)
            + sampleWeight σ Δt i *
                (dC ch * s +
                  ((∑ ch' in Finset.univ.erase ch, dC ch' * c i ch') + dD * tv i + dW)))
            + ∑ j in Finset.Ico (i + 1) n,
                sampleWeight σ Δt j * lossIn dC dD dW c tv j := by
      funext s
      rw [rayLoss_eq, sum_range_split _ i n hin]
      congr 1
      · congr 1
        · exact Finset.sum_congr rfl fun j hj => by
            rw [lossIn_update_ne dC dD dW c tv i _ j
              (by have := Finset.mem_range.mp hj; omega)]
        · congr 1
          rw [lossIn, Function.update_same]
          rw [← Finset.add_sum_erase Finset.univ
            (fun ch' => dC ch' * Function.update (c i) ch s ch') (Finset.mem_univ ch)]
          rw [Function.update_same]
          have herase : ∑ ch' in Finset.univ.erase ch, dC ch' * Function.update (c i) ch s ch'
              = ∑ ch' in Finset.univ.erase ch, dC ch' * c i ch' :=
            Finset.sum_congr rfl fun ch' hch' => by
              rw [Function.update_noteq (Finset.ne_of_mem_erase hch')]
          rw [herase]
          ring
      · exact Finset.sum_congr rfl fun j hj => by
          rw [lossIn_update_ne dC dD dW c tv i _ j
            (by have := (Finset.mem_Ico.mp hj).1; omega)]
    rw [hfun]
    have hconst1 : HasDerivAt
        (fun _ : ℝ => ∑ j in Finset.range i, sampleWeight σ Δt j * lossIn dC dD dW c tv j)
        0 (c i ch) := hasDerivAt_const _ _
    have hconst2 : HasDerivAt
        (fun _ : ℝ => ∑ j in Finset.Ico (i + 1) n,
          sampleWeight σ Δt j * lossIn dC dD dW c tv j)
        0 (c i ch) := hasDerivAt_const _ _
    have hmid0 : HasDerivAt
        (fun s : ℝ => dC ch * s +
          ((∑ ch' in Finset.univ.erase ch, dC ch' * c i ch') + dD * tv i + dW))
        (dC ch * 1) (c i ch) :=
      ((hasDerivAt_id' (c i ch)).const_mul (dC ch)).add_const _
    have hmid := hmid0.const_mul (sampleWeight σ Δt i)
    have hsum := (hconst1.add hmid).add hconst2
    have hfin : 0 + sampleWeight σ Δt i * (dC ch * 1) + 0
        = (integrate_rays_backward σ Δt tv c dC dD dW n i).2 ch := by
      simp only [integrate_rays_backward]
      ring
    exact hfin ▸ hsum

theorem integrate_rays_backward_spec_witness :
    0 < 1 ∧
    (HasDerivAt
        (fun s => rayLoss (Function.update (fun _ : ℕ => (1 : ℝ)) 0 s) (fun _ => 1)
          (fun _ => 0) (fun _ _ => 0) (fun _ => 1) 0 1 1)
        (integrate_rays_backward (fun _ : ℕ => (1 : ℝ)) (fun _ => 1) (fun _ => 0)
          (fun _ _ => 0) (fun _ => 1) 0 1 1 0).1 ((fun _ : ℕ => (1 : ℝ)) 0) ∧
      (∀ ch : Fin 3,
        HasDerivAt
          (fun s => rayLoss (fun _ : ℕ => (1 : ℝ)) (fun _ => 1) (fun _ => 0)
            (Function.update (fun _ _ => (0 : ℝ)) 0
              (Function.update ((fun _ _ => (0 : ℝ)) 0) ch s))
            (fun _ => 1) 0 1 1)
          ((integrate_rays_backward (fun _ : ℕ => (1 : ℝ)) (fun _ => 1) (fun _ => 0)
            (fun _ _ => 0) (fun _ => 1) 0 1 1 0).2 ch) ((fun _ _ => (0 : ℝ)) 0 ch)) ∧
      (List.range 0).map
        (integrate_rays_backward (fun _ : ℕ => (1 : ℝ)) (fun _ => 1) (fun _ => 0)
          (fun _ _ => 0) (fun _ => 1) 0 1 0) = []) :=
  ⟨by decide,
    integrate_rays_backward_spec (fun _ => 1) (fun _ => 1) (fun _ => 0) (fun _ _ => 0)
      (fun _ => 1) 0 1 1 0 (by decide)⟩

/-! ## Error handling -/

/-- `cudaSuccess` of the device runtime, embedded as error code 0. -/
def cudaSuccess : ℕ := 0

/-- `FILE_LINE` from the header: the source-location string
`__FILE__ ":" __LINE__`. -/
def FILE_LINE (file : String) (line : ℕ) : String := file ++ ":" ++ toString line

/-- `CUDA_CHECK_THROW` from the header: if the guarded device call
returned an error code, abort with a message holding the source
location, the stringified failing expression and the native device
error text (`cudaGetErrorString`, embedded as `errText`); otherwise
continue. -/
def CUDA_CHECK_THROW (errText : ℕ → String) (file : String) (line : ℕ)
    (exprStr : String) (result : ℕ) : Except String Unit :=
  if result ≠ cudaSuccess then
    Except.error
      (FILE_LINE file line ++ " " ++ exprStr ++ " failed with error " ++ errText result)
  else
    Except.ok ()

/-- Modelled from the spec: an exposed operation is a sequence of
device-runtime calls (each a stringified expression paired with its
result code), every one guarded by `CUDA_CHECK_THROW`; execution
stops at the first failing call. -/
def runGuarded (errText : ℕ → String) (file : String) (line : ℕ) :
    List (String × ℕ) → Except String Unit
  | [] => Except.ok ()
  | step :: rest =>
      match CUDA_CHECK_THROW errText file line step.1 step.2 with
      | Except.ok _ => runGuarded errText file line rest
      | Except.error e => Except.error e

theorem runGuarded_append_error (errText : ℕ → String) (file : String) (line : ℕ) :
    ∀ pre : List (String × ℕ), (∀ s ∈ pre, s.2 = cudaSuccess) →
      ∀ bad : String × ℕ, bad.2 ≠ cudaSuccess → ∀ rest : List (String × ℕ),
        runGuarded errText file line (pre ++ bad :: rest)
          = Except.error
              (FILE_LINE file line ++ " " ++ bad.1 ++ " failed with error "
                ++ errText bad.2) := by
  intro pre
  induction pre with
  | nil =>
      intro _ bad hbad rest
      simp [runGuarded, CUDA_CHECK_THROW, hbad]
  | cons p pre ih =>
      intro hpre bad hbad rest
      have hp : p.2 = cudaSuccess := hpre p (List.mem_cons_self p pre)
      have hpre2 : ∀ s ∈ pre, s.2 = cudaSuccess := fun s hs =>
        hpre s (List.mem_cons_of_mem p hs)
      rw [List.cons_append]
      simp only [runGuarded, CUDA_CHECK_THROW, hp]
      simp only [ne_eq, not_true_eq_false, if_false, ite_self, reduceIte]
      exact ih hpre2 bad hbad rest

/-- C9: when the device calls before `bad` succeed and `bad` fails,
the operation aborts with an error message that contains the source
location, the failing expression and the native error text, and the
result does not depend on the calls scheduled after the failure (no
retry, no partial success). -/
theorem runGuarded_abort (errText : ℕ → String) (file : String) (line : ℕ)
    (pre post : List (String × ℕ)) (bad : String × ℕ)
    (hpre : ∀ s ∈ pre, s.2 = cudaSuccess) (hbad : bad.2 ≠ cudaSuccess) :
    runGuarded errText file line (pre ++ bad :: post)
      = Except.error
          (FILE_LINE file line ++ " " ++ bad.1 ++ " failed with error " ++ errText bad.2) ∧
    (∃ u v : String,
      FILE_LINE file line ++ " " ++ bad.1 ++ " failed with error " ++ errText bad.2
        = u ++ (file ++ ":" ++ toString line) ++ v) ∧
    (∃ u v : String,
      FILE_LINE file line ++ " " ++ bad.1 ++ " failed with error " ++ errText bad.2
        = u ++ bad.1 ++ v) ∧
    (∃ u v : String,
      FILE_LINE file line ++ " " ++ bad.1 ++ " failed with error " ++ errText bad.2
        = u ++ errText bad.2 ++ v) ∧
    (∀ post2 : List (String × ℕ),
      runGuarded errText file line (pre ++ bad :: post2)
        = runGuarded errText file line (pre ++ bad :: post)) := by
  refine ⟨runGuarded_append_error errText file line pre hpre bad hbad post, ?_, ?_, ?_, ?_⟩
  · refine ⟨"", " " ++ bad.1 ++ " failed with error " ++ errText bad.2, ?_⟩
    rw [String.empty_append, FILE_LINE]
    simp only [String.append_assoc]
  · refine ⟨FILE_LINE file line ++ " ", " failed with error " ++ errText bad.2, ?_⟩
    simp only [String.append_assoc]
  · refine ⟨FILE_LINE file line ++ " " ++ bad.1 ++ " failed with error ", "", ?_⟩
    rw [String.append_empty]
  · intro post2
    rw [runGuarded_append_error errText file line pre hpre bad hbad post2,
      runGuarded_append_error errText file line pre hpre bad hbad post]

theorem runGuarded_abort_witness :
    ((∀ s ∈ ([] : List (String × ℕ)), s.2 = cudaSuccess) ∧
      (("cudaMalloc(buf, size)", 2) : String × ℕ).2 ≠ cudaSuccess) ∧
    (runGuarded (fun _ => "out of memory") "volrend.cu" 42
        ([] ++ ("cudaMalloc(buf, size)", 2) :: [("cudaStreamSynchronize(stream)", 0)])
      = Except.error
          (FILE_LINE "volrend.cu" 42 ++ " " ++ ("cudaMalloc(buf, size)", 2).1
            ++ " failed with error " ++ (fun _ : ℕ => "out of memory") 2) ∧
      (∃ u v : String,
        FILE_LINE "volrend.cu" 42 ++ " " ++ ("cudaMalloc(buf, size)", 2).1
            ++ " failed with error " ++ (fun _ : ℕ => "out of memory") 2
          = u ++ ("volrend.cu" ++ ":" ++ toString 42) ++ v) ∧
      (∃ u v : String,
        FILE_LINE "volrend.cu" 42 ++ " " ++ ("cudaMalloc(buf, size)", 2).1
            ++ " failed with error " ++ (fun _ : ℕ => "out of memory") 2
          = u ++ ("cudaMalloc(buf, size)", 2).1 ++ v) ∧
      (∃ u v : String,
        FILE_LINE "volrend.cu" 42 ++ " " ++ ("cudaMalloc(buf, size)", 2).1
            ++ " failed with error " ++ (fun _ : ℕ => "out of memory") 2
          = u ++ (fun _ : ℕ => "out of memory") 2 ++ v) ∧
      (∀ post2 : List (String × ℕ),
        runGuarded (fun _ => "out of memory") "volrend.cu" 42
            ([] ++ ("cudaMalloc(buf, size)", 2) :: post2)
          = runGuarded (fun _ => "out of memory") "volrend.cu" 42
              ([] ++ ("cudaMalloc(buf, size)", 2)
                :: [("cudaStreamSynchronize(stream)", 0)]))) :=
  ⟨⟨fun s hs => absurd hs (List.not_mem_nil s), by decide⟩,
    runGuarded_abort (fun _ => "out of memory") "volrend.cu" 42 []
      [("cudaStreamSynchronize(stream)", 0)] ("cudaMalloc(buf, size)", 2)
      (fun s hs => absurd hs (List.not_mem_nil s)) (by decide)⟩

end volrendjax
